import Mathlib

/-!
Verification development for the Bypass-Subtitle browser extension.

The definitions below are shallow embeddings of the JavaScript sources:
  - src/core/extension/content.js   (audio capture, adaptive chunking, dispatch)
  - src/core/extension/background.js (processing handlers, context ledger, WAV
    re-encoding, base64 decoding)
  - src/core/extension/DataSyncService.js (consent-gated sync, IndexedDB store)

Machine numbers are modelled as Nat/Int/Rat with explicit `% 2^w` where the
source relies on fixed-width behaviour; JavaScript objects holding per-language
translation slots are modelled as insertion-ordered association lists; network
calls are modelled by passing the outcome of the single `fetch` a code path
performs as an explicit argument, together with a flag recording whether the
path reached its network call.
-/

namespace BypassSubtitle

/-! ### Bytes, base64 (content.js `arrayBufferToBase64`, background.js `atob`) -/

/-- The base64 alphabet used by `btoa`/`atob`. -/
def b64Alphabet : List Char :=
  ['A','B','C','D','E','F','G','H','I','J','K','L','M','N','O','P','Q','R','S',
   'T','U','V','W','X','Y','Z','a','b','c','d','e','f','g','h','i','j','k','l',
   'm','n','o','p','q','r','s','t','u','v','w','x','y','z','0','1','2','3','4',
   '5','6','7','8','9','+','/']

/-- Character for a sextet value. -/
def b64Char (k : ℕ) : Char := b64Alphabet.getD k 'A'

/-- Sextet value of a base64 character (index in the alphabet). -/
def b64Val (c : Char) : ℕ := b64Alphabet.indexOf c

/-- `btoa` on a byte sequence: standard base64, 3 bytes to 4 characters,
with `=` padding, as the browser primitive used by `arrayBufferToBase64`. -/
def btoaBytes : List ℕ → List Char
  | [] => []
  | [a] => [b64Char (a / 4), b64Char (a % 4 * 16), '=', '=']
  | [a, b] => [b64Char (a / 4), b64Char (a % 4 * 16 + b / 16), b64Char (b % 16 * 4), '=']
  | a :: b :: c :: rest =>
      b64Char (a / 4) :: b64Char (a % 4 * 16 + b / 16) ::
      b64Char (b % 16 * 4 + c / 64) :: b64Char (c % 64) :: btoaBytes rest

/-- `atob` on a well-formed base64 string, producing the byte sequence
(the browser primitive used by background.js `base64ToBlob`). -/
def atobChars : List Char → List ℕ
  | c1 :: c2 :: c3 :: c4 :: rest =>
      let v1 := b64Val c1
      let v2 := b64Val c2
      let v3 := b64Val c3
      let v4 := b64Val c4
      if c3 = '=' then [v1 * 4 + v2 / 16]
      else if c4 = '=' then [v1 * 4 + v2 / 16, v2 % 16 * 16 + v3 / 4]
      else (v1 * 4 + v2 / 16) :: (v2 % 16 * 16 + v3 / 4) :: (v3 % 4 * 64 + v4) ::
           atobChars rest
  | _ => []

/-- content.js `arrayBufferToBase64`: the buffer's bytes, turned into a binary
string character-by-character and passed to `btoa`. -/
def arrayBufferToBase64 (bytes : List ℕ) : String := String.mk (btoaBytes bytes)

/-! ### 16-bit PCM and the WAV container (background.js `createWavFile`) -/

/-- Little-endian bytes of a 16-bit value, as `DataView.setInt16(_, v, true)`
stores a sample: two's complement of `v`, low byte first. -/
def int16ToBytesLE (v : ℤ) : List ℕ :=
  [(v % 65536).toNat % 256, (v % 65536).toNat / 256]

/-- Signed 16-bit value read back from two little-endian bytes, as
`Int16Array` views a pair of bytes. -/
def bytesToInt16 (lo hi : ℕ) : ℤ :=
  let u := lo + 256 * hi
  if u < 32768 then (u : ℤ) else (u : ℤ) - 65536

/-- background.js `new Int16Array(bytes.buffer)`: consecutive little-endian
byte pairs as signed 16-bit samples. -/
def bytesToInt16List : List ℕ → List ℤ
  | lo :: hi :: rest => bytesToInt16 lo hi :: bytesToInt16List rest
  | _ => []

/-- Little-endian bytes of a 16-bit header field (`setUint16(_, x, true)`). -/
def u16LE (x : ℕ) : List ℕ := [x % 256, x / 256 % 256]

/-- Little-endian bytes of a 32-bit header field (`setUint32(_, x, true)`). -/
def u32LE (x : ℕ) : List ℕ :=
  [x % 256, x / 256 % 256, x / 65536 % 256, x / 16777216 % 256]

/-- Unsigned 32-bit value read back from four little-endian bytes. -/
def u32FromLE (l : List ℕ) : ℕ :=
  l.getD 0 0 + 256 * l.getD 1 0 + 65536 * l.getD 2 0 + 16777216 * l.getD 3 0

/-- background.js `writeString`: one byte per character code. -/
def asciiBytes (s : String) : List ℕ := s.data.map Char.toNat

/-- The first 40 bytes of the WAV header built by `createWavFile`, in the
order the `DataView` writes land: "RIFF" at 0, riff size at 4, "WAVE" at 8,
"fmt " at 12, subchunk size 16 at 16, PCM format 1 at 20, channel count at 22,
sample rate at 24, byte rate at 28, block align at 32, bits per sample at 34,
"data" at 36.  `numChannels = 1`, `bitsPerSample = 16` as in the source. -/
def wavHeaderPre (dataSize sampleRate : ℕ) : List ℕ :=
  asciiBytes "RIFF" ++ u32LE (36 + dataSize) ++ asciiBytes "WAVE" ++
  asciiBytes "fmt " ++ u32LE 16 ++ u16LE 1 ++ u16LE 1 ++ u32LE sampleRate ++
  u32LE (sampleRate * 1 * 2) ++ u16LE (1 * 2) ++ u16LE 16 ++ asciiBytes "data"

/-- background.js `createWavFile`: 44-byte header (the 40 bytes above, then
the data-size field at offset 40) followed by the samples, little-endian. -/
def createWavFile (pcmData : List ℤ) (sampleRate : ℕ) : List ℕ :=
  let dataSize := pcmData.length * 2
  wavHeaderPre dataSize sampleRate ++ u32LE dataSize ++
    pcmData.flatMap int16ToBytesLE

/-- background.js `base64ToBlob`: decode the base64 payload, view it as
16-bit samples, and wrap it in a 16 kHz WAV container. -/
def base64ToBlob (base64 : String) : List ℕ :=
  createWavFile (bytesToInt16List (atobChars base64.data)) 16000

/-! ### Audio sample encoding (content.js `onaudioprocess`) -/

/-- Truncation toward zero, as assignment into an `Int16Array` converts an
in-range number to an integer. -/
def truncToInt (q : ℚ) : ℤ := if 0 ≤ q then ⌊q⌋ else ⌈q⌉

/-- content.js `onaudioprocess` body:
`int16Data[i] = Math.max(-32768, Math.min(32767, inputData[i] * 32768))`,
the clamped value then stored into the `Int16Array` slot. -/
def encodeSample (x : ℚ) : ℤ :=
  truncToInt (max (-32768) (min 32767 (x * 32768)))

/-! ### Adaptive chunk scheduler (content.js `adaptChunkSize`) -/

/-- content.js `adaptChunkSize`: `0.8` and `0.3` are the source's numeric
literals, modelled exactly as rationals; durations and processing times are
millisecond quantities. -/
def adaptChunkSize (currentChunkDuration processingTime : ℚ) : ℚ :=
  let threshold := currentChunkDuration * (8 / 10)
  if processingTime > threshold ∧ currentChunkDuration < 6000 then
    min 6000 (currentChunkDuration + 500)
  else if processingTime < currentChunkDuration * (3 / 10) ∧
      currentChunkDuration > 2000 then
    max 2000 (currentChunkDuration - 500)
  else currentChunkDuration

/-! ### Freshness guard on dispatch (content.js `sendToGroqAPI`,
`sendToLocalBackend`) -/

/-- content.js `MAX_LAG_MS`. -/
def MAX_LAG_MS : ℚ := 5000

/-- Observable outcome of one `sendToGroqAPI` call up to its network call:
whether `chrome.runtime.sendMessage` was reached, and the value of the
`lagAccumulator` module variable afterwards. -/
structure GroqSendOutcome where
  networkCall : Bool
  lagAccumulator : ℚ
  deriving DecidableEq, Repr

/-- content.js `sendToGroqAPI`, up to the dispatch decision: computes
`chunkAge = Date.now() - videoTime * 1000` and drops the chunk (resetting
`lagAccumulator` to 0) when the age exceeds `MAX_LAG_MS`; otherwise it
proceeds to the `sendMessage` network call. -/
def sendToGroqAPI (lagAccumulator now videoTime : ℚ) : GroqSendOutcome :=
  let chunkAge := now - videoTime * 1000
  if chunkAge > MAX_LAG_MS then { networkCall := false, lagAccumulator := 0 }
  else { networkCall := true, lagAccumulator := lagAccumulator }

/-- content.js `sendToLocalBackend`: returns whether the chunk is sent on the
WebSocket.  The source sends whenever the socket is open; it computes no chunk
age and consults no lag threshold. -/
def sendToLocalBackend (websocketOpen : Bool) (now videoTime : ℚ) : Bool :=
  websocketOpen

/-! ### Context ledger (background.js `translationContext`) -/

/-- background.js context entry pushed after a successful dispatch. -/
structure ContextEntry where
  original : String
  translated : String
  deriving DecidableEq, Repr

/-- background.js `MAX_CONTEXT_SIZE`. -/
def MAX_CONTEXT_SIZE : ℕ := 3

/-- The push performed by both handlers:
`translationContext.push(e); if (length > MAX_CONTEXT_SIZE) shift();`
(`shift` removes the front element once). -/
def pushContext (ctx : List ContextEntry) (e : ContextEntry) :
    List ContextEntry :=
  let c := ctx ++ [e]
  if c.length > MAX_CONTEXT_SIZE then c.drop 1 else c

/-- The guarded context update both handlers perform: push only when both the
original and the translated text are truthy (non-empty). -/
def updateContext (ctx : List ContextEntry) (original translated : String) :
    List ContextEntry :=
  if original ≠ "" ∧ translated ≠ "" then
    pushContext ctx { original := original, translated := translated }
  else ctx

/-- Model of `String.prototype.trim`: strip leading and trailing
whitespace. -/
def jsTrim (s : String) : String :=
  String.mk
    (((s.data.dropWhile Char.isWhitespace).reverse.dropWhile
      Char.isWhitespace).reverse)

/-! ### Processing handlers (background.js) -/

/-- Outcome of a single `fetch`, passed to a handler as an explicit argument:
the promise rejected (network failure), the response was non-2xx, or it
succeeded with a parsed payload. -/
inductive FetchOutcome (α : Type) where
  | netError
  | httpError (status : ℕ) (detail : String)
  | ok (payload : α)

/-- The error the handlers throw (surfaced as `{error: message}` by the
message listener). -/
inductive ProcError where
  | missingCredentials
  | missingApiKey
  | network
  | api (status : ℕ) (detail : String)
  deriving DecidableEq, Repr

/-- Parsed JSON body of a successful proxy response in
`handleBackendProcessing` (absent fields modelled as empty strings, which the
source treats identically under truthiness). -/
structure BackendResult where
  provider : String
  text : String
  original : String
  translated : String
  deriving DecidableEq, Repr

/-- background.js `config.js` values consulted by `handleBackendProcessing`
(empty string models a falsy/unset value). -/
structure BackendConfig where
  backendUrl : String
  apiSecret : String
  deriving DecidableEq, Repr

/-- background.js `handleBackendProcessing`: credential check before any
network call, then the proxy `fetch`; non-2xx and rejected fetches throw; on
success the context ledger is updated when both texts are non-empty.
Returns the thrown-or-returned value together with the `translationContext`
after the call. -/
def handleBackendProcessing (cfg : BackendConfig) (ctx : List ContextEntry)
    (fetchRes : FetchOutcome BackendResult) :
    Except ProcError BackendResult × List ContextEntry :=
  if cfg.apiSecret = "" ∨ cfg.backendUrl = "" then
    (.error .missingCredentials, ctx)
  else
    match fetchRes with
    | .netError => (.error .network, ctx)
    | .httpError status detail => (.error (.api status detail), ctx)
    | .ok result => (.ok result, updateContext ctx result.original result.translated)

/-- Parsed body of a successful chat-completion response in `translateText`:
`data.choices?.[0]?.message?.content`, `none` when the optional chain yields
nothing. -/
structure ChatResponse where
  content : Option String
  deriving DecidableEq, Repr

/-- background.js `translateText`: a rejected `fetch` propagates as a thrown
error; a non-2xx response returns the empty string
(`if (!response.ok) return ''`); otherwise the trimmed content or `''`. -/
def translateText (fetchRes : FetchOutcome ChatResponse) :
    Except Unit String :=
  match fetchRes with
  | .netError => .error ()
  | .httpError _ _ => .ok ""
  | .ok data => .ok (jsTrim (data.content.getD ""))

/-- Parsed body of a successful transcription response in
`handleDirectProcessing` (`result.text`). -/
structure TransResult where
  text : String
  deriving DecidableEq, Repr

/-- The `responseMsg` object `handleDirectProcessing` returns. -/
structure DirectResponse where
  text : String
  original : String
  translated : String
  provider : String
  deriving DecidableEq, Repr

/-- background.js `handleDirectProcessing`: API-key check, transcription
`fetch` (rejected or non-2xx throws), then — only when a target language is
requested — the translation leg via `translateText`, whose thrown errors
propagate out of the handler; finally `text: translated || original` and the
guarded context push.  Returns the thrown-or-returned value together with the
`translationContext` after the call. -/
def handleDirectProcessing (groqApiKey targetLang apiMode : String)
    (ctx : List ContextEntry) (fetchTrans : FetchOutcome TransResult)
    (fetchTranslate : FetchOutcome ChatResponse) :
    Except ProcError DirectResponse × List ContextEntry :=
  if groqApiKey = "" then (.error .missingApiKey, ctx)
  else
    match fetchTrans with
    | .netError => (.error .network, ctx)
    | .httpError status detail => (.error (.api status detail), ctx)
    | .ok result =>
        let original := result.text
        match (if targetLang ≠ "" then translateText fetchTranslate
               else .ok "") with
        | .error _ => (.error .network, ctx)
        | .ok translated =>
            (.ok { text := if translated = "" then original else translated,
                   original := original, translated := translated,
                   provider := apiMode },
             updateContext ctx original translated)

/-! ### Consent-gated sync (DataSyncService.js) -/

/-- Truncation to 32 bits. -/
def w32 (x : ℕ) : ℕ := x % 4294967296

/-- Right rotation of a 32-bit word. -/
def rotr32 (n x : ℕ) : ℕ := w32 (x / 2 ^ n + x % 2 ^ n * 2 ^ (32 - n))

/-- SHA-256 `Ch`. -/
def sha256Ch (x y z : ℕ) : ℕ := (x &&& y) ^^^ ((x ^^^ 4294967295) &&& z)

/-- SHA-256 `Maj`. -/
def sha256Maj (x y z : ℕ) : ℕ := (x &&& y) ^^^ (x &&& z) ^^^ (y &&& z)

/-- SHA-256 `Σ₀`. -/
def sha256S0 (x : ℕ) : ℕ := rotr32 2 x ^^^ rotr32 13 x ^^^ rotr32 22 x

/-- SHA-256 `Σ₁`. -/
def sha256S1 (x : ℕ) : ℕ := rotr32 6 x ^^^ rotr32 11 x ^^^ rotr32 25 x

/-- SHA-256 `σ₀`. -/
def sha256s0 (x : ℕ) : ℕ := rotr32 7 x ^^^ rotr32 18 x ^^^ x / 2 ^ 3

/-- SHA-256 `σ₁`. -/
def sha256s1 (x : ℕ) : ℕ := rotr32 17 x ^^^ rotr32 19 x ^^^ x / 2 ^ 10

/-- SHA-256 round constants (decimal values of the standard table). -/
def sha256K : List ℕ :=
  [1116352408, 1899447441, 3049323471, 3921009573, 961987163,
   1508970993, 2453635748, 2870763221, 3624381080, 310598401,
   607225278, 1426881987, 1925078388, 2162078206, 2614888103,
   3248222580, 3835390401, 4022224774, 264347078, 604807628,
   770255983, 1249150122, 1555081692, 1996064986, 2554220882,
   2821834349, 2952996808, 3210313671, 3336571891, 3584528711,
   113926993, 338241895, 666307205, 773529912, 1294757372,
   1396182291, 1695183700, 1986661051, 2177026350, 2456956037,
   2730485921, 2820302411, 3259730800, 3345764771, 3516065817,
   3600352804, 4094571909, 275423344, 430227734, 506948616,
   659060556, 883997877, 958139571, 1322822218, 1537002063,
   1747873779, 1955562222, 2024104815, 2227730452, 2361852424,
   2428436474, 2756734187, 3204031479, 3329325298]

/-- SHA-256 initial hash value (decimal values of the standard table). -/
def sha256H0 : List ℕ :=
  [1779033703, 3144134277, 1013904242, 2773480762,
   1359893119, 2600822924, 528734635, 1541459225]

/-- Big-endian 8-byte encoding of the message bit length. -/
def be64 (x : ℕ) : List ℕ :=
  [x / 2 ^ 56 % 256, x / 2 ^ 48 % 256, x / 2 ^ 40 % 256, x / 2 ^ 32 % 256,
   x / 2 ^ 24 % 256, x / 2 ^ 16 % 256, x / 2 ^ 8 % 256, x % 256]

/-- SHA-256 padding: `0x80`, zeros to 56 mod 64, then the bit length. -/
def sha256Pad (msg : List ℕ) : List ℕ :=
  msg ++ [128] ++ List.replicate ((119 - msg.length % 64) % 64) 0 ++
    be64 (msg.length * 8)

/-- Big-endian 32-bit words from bytes. -/
def bytesToWordsBE : List ℕ → List ℕ
  | a :: b :: c :: d :: rest =>
      (a * 16777216 + b * 65536 + c * 256 + d) :: bytesToWordsBE rest
  | _ => []

/-- Split a byte sequence into 64-byte blocks (structural recursion on a
fuel bound; each step consumes at least one byte, so the input length is
enough fuel). -/
def chunks64Fuel : ℕ → List ℕ → List (List ℕ)
  | 0, _ => []
  | _, [] => []
  | fuel + 1, a :: rest =>
      (a :: rest).take 64 :: chunks64Fuel fuel ((a :: rest).drop 64)

/-- Split a byte sequence into 64-byte blocks. -/
def chunks64 (l : List ℕ) : List (List ℕ) := chunks64Fuel l.length l

/-- Message-schedule extension from 16 to 64 words. -/
def sha256Schedule (w16 : List ℕ) : List ℕ :=
  (List.range 48).foldl
    (fun w _ =>
      let n := w.length
      w ++ [w32 (sha256s1 (w.getD (n - 2) 0) + w.getD (n - 7) 0 +
                 sha256s0 (w.getD (n - 15) 0) + w.getD (n - 16) 0)])
    w16

/-- One compression round on the state `[a,b,c,d,e,f,g,h]`. -/
def sha256Round (s : List ℕ) (kw : ℕ × ℕ) : List ℕ :=
  let a := s.getD 0 0
  let b := s.getD 1 0
  let c := s.getD 2 0
  let d := s.getD 3 0
  let e := s.getD 4 0
  let f := s.getD 5 0
  let g := s.getD 6 0
  let h := s.getD 7 0
  let t1 := w32 (h + sha256S1 e + sha256Ch e f g + kw.1 + kw.2)
  let t2 := w32 (sha256S0 a + sha256Maj a b c)
  [w32 (t1 + t2), a, b, c, w32 (d + t1), e, f, g]

/-- Compression of one 64-byte block into the running hash. -/
def sha256Block (hs : List ℕ) (block : List ℕ) : List ℕ :=
  let ws := sha256Schedule (bytesToWordsBE block)
  let s := (sha256K.zip ws).foldl sha256Round hs
  (hs.zip s).map fun p => w32 (p.1 + p.2)

/-- SHA-256 digest (32 bytes) of a byte sequence. -/
def sha256 (msg : List ℕ) : List ℕ :=
  ((chunks64 (sha256Pad msg)).foldl sha256Block sha256H0).flatMap
    fun w => [w / 16777216 % 256, w / 65536 % 256, w / 256 % 256, w % 256]

/-- UTF-8 bytes of one character (the `TextEncoder` used by
`generateVideoId`). -/
def utf8EncodeCharBytes (c : Char) : List ℕ :=
  let n := c.toNat
  if n < 128 then [n]
  else if n < 2048 then [192 + n / 64, 128 + n % 64]
  else if n < 65536 then [224 + n / 4096, 128 + n / 64 % 64, 128 + n % 64]
  else [240 + n / 262144, 128 + n / 4096 % 64, 128 + n / 64 % 64, 128 + n % 64]

/-- `new TextEncoder().encode(s)`. -/
def utf8Bytes (s : String) : List ℕ := s.data.flatMap utf8EncodeCharBytes

/-- Lowercase hex digit (`b.toString(16)`). -/
def hexChar (n : ℕ) : Char :=
  if n < 10 then Char.ofNat (48 + n) else Char.ofNat (87 + n)

/-- Two hex digits of one byte (`toString(16).padStart(2, '0')`). -/
def byteToHex (b : ℕ) : List Char := [hexChar (b / 16), hexChar (b % 16)]

/-- DataSyncService.js `SubtitleStore.generateVideoId`: hex of the SHA-256
digest of the UTF-8 bytes of the URL. -/
def generateVideoId (url : String) : String :=
  String.mk ((sha256 (utf8Bytes url)).flatMap byteToHex)

/-! ### Subtitle store (DataSyncService.js `SubtitleStore`) -/

/-- DataSyncService.js `SUPPORTED_LANGUAGES`. -/
def SUPPORTED_LANGUAGES : List String :=
  ["en", "vi", "zh", "ja", "ko", "fr", "de", "es", "ru", "th"]

/-- A JavaScript object used as a per-language translation map: an
insertion-ordered association list from key to string-or-null. -/
abbrev Translations : Type := List (String × Option String)

/-- Property assignment `obj[k] = v`: update in place when the key exists,
append otherwise. -/
def objSet (tr : Translations) (k : String) (v : Option String) : Translations :=
  if tr.any (fun p => p.1 == k) then
    tr.map fun p => if p.1 == k then (k, v) else p
  else tr ++ [(k, v)]

/-- Property read `obj[k]`, with an absent key and a null value conflated
(both falsy, as every consumer in the source treats them). -/
def trLookup (tr : Translations) (k : String) : Option String :=
  match tr.find? (fun p => p.1 == k) with
  | some p => p.2
  | none => none

/-- `Object.keys(obj)`, in insertion order. -/
def trKeys (tr : Translations) : List String := tr.map Prod.fst

/-- `translations[lang] || null`: an absent slot and an empty string both
become null. -/
def normalizeSlot (v : Option String) : Option String :=
  match v with
  | some s => if s = "" then none else some s
  | none => none

/-- The `translationsObj` built by `saveSegment`: one slot per supported
language, `translations[lang] || null`. -/
def buildTranslationsObj (translations : String → Option String) : Translations :=
  SUPPORTED_LANGUAGES.map fun lang => (lang, normalizeSlot (translations lang))

/-- The merge loop of `saveSegment`:
`Object.keys(translationsObj).forEach(lang => { if (translationsObj[lang])
existing.translations[lang] = translationsObj[lang]; })`. -/
def mergeFold (ex : Translations) (ps : List (String × Option String)) :
    Translations :=
  ps.foldl
    (fun acc p =>
      match p.2 with
      | some s => if s = "" then acc else objSet acc p.1 (some s)
      | none => acc)
    ex

/-- Merge of an incoming `translationsObj` into an existing record's
translations. -/
def mergeTranslations (ex obj : Translations) : Translations := mergeFold ex obj

/-- A `videos` object-store record. -/
structure Video where
  id : String
  url : String
  title : String
  duration : ℚ
  createdAt : ℕ
  lastAccessed : ℕ

/-- The optional `metadata` argument of `saveSegment`. -/
structure Metadata where
  confidence : Option ℚ := none
  model : Option String := none
  userCorrected : Bool := false
  correctedText : Option String := none

/-- A `segments` object-store record (`id` is the auto-increment key). -/
structure Segment where
  id : ℕ
  videoId : String
  startTime : ℚ
  endTime : ℚ
  original : String
  sourceLang : String
  translations : Translations
  confidence : Option ℚ
  model : String
  userCorrected : Bool
  correctedText : Option String
  createdAt : ℕ

/-- The persistent store: both object stores plus the auto-increment
counter of `segments`. -/
structure Store where
  videos : List Video
  segments : List Segment
  nextSegmentId : ℕ

/-- The empty database. -/
def emptyStore : Store := { videos := [], segments := [], nextSegmentId := 1 }

/-- `store.put(video)` on a store with `keyPath: 'id'`: replace the record
with that key when present, insert otherwise. -/
def putVideo (videos : List Video) (v : Video) : List Video :=
  if videos.any (fun x => x.id == v.id) then
    videos.map fun x => if x.id == v.id then v else x
  else videos ++ [v]

/-- DataSyncService.js `SubtitleStore.saveVideo`: build the record with both
timestamps set to now, keep the existing `createdAt` when a record with the
same id exists, then `put`.  `now` stands for `new Date().toISOString()`. -/
def saveVideo (st : Store) (url : String) (title : String := "")
    (duration : ℚ := 0) (now : ℕ := 0) : Store × Video :=
  let id := generateVideoId url
  let existing := st.videos.find? fun v => v.id == id
  let video : Video :=
    { id := id, url := url, title := title, duration := duration,
      createdAt := match existing with
        | some e => e.createdAt
        | none => now,
      lastAccessed := now }
  ({ st with videos := putVideo st.videos video }, video)

/-- The `videoId_startTime` index predicate for a key pair. -/
def segKey (videoId : String) (startTime : ℚ) (s : Segment) : Bool :=
  s.videoId == videoId && decide (s.startTime = startTime)

/-- `cursor.update` through an index cursor positioned on the first match:
replace the first element satisfying the predicate. -/
def replaceFirst (l : List Segment) (p : Segment → Bool) (v : Segment) :
    List Segment :=
  match l with
  | [] => []
  | x :: xs => if p x then v :: xs else x :: replaceFirst xs p v

/-- DataSyncService.js `SubtitleStore.saveSegment`: compute the video id,
upsert the video record, build the normalized `translationsObj`; when a
segment with key `(videoId, startTime)` exists, merge non-empty incoming
slots into it and replace `original`/`sourceLang` in place; otherwise add a
fresh record under a new auto-increment id. -/
def saveSegment (st : Store) (videoUrl : String) (startTime endTime : ℚ)
    (original sourceLang : String) (translations : String → Option String)
    (metadata : Metadata) (now : ℕ) : Store × Segment :=
  let videoId := generateVideoId videoUrl
  let st1 := (saveVideo st videoUrl "" 0 now).1
  let translationsObj := buildTranslationsObj translations
  match st1.segments.find? (segKey videoId startTime) with
  | some existing =>
      let merged :=
        { existing with
          translations := mergeTranslations existing.translations translationsObj,
          original := original, sourceLang := sourceLang }
      ({ st1 with
         segments := replaceFirst st1.segments (segKey videoId startTime) merged },
       merged)
  | none =>
      let segment : Segment :=
        { id := st1.nextSegmentId, videoId := videoId, startTime := startTime,
          endTime := endTime, original := original, sourceLang := sourceLang,
          translations := translationsObj,
          confidence := match metadata.confidence with
            | some q => if q = 0 then none else some q
            | none => none,
          model := match metadata.model with
            | some s => if s = "" then "whisper-large-v3" else s
            | none => "whisper-large-v3",
          userCorrected := metadata.userCorrected,
          correctedText := match metadata.correctedText with
            | some s => if s = "" then none else some s
            | none => none,
          createdAt := now }
      ({ st1 with segments := st1.segments ++ [segment],
                  nextSegmentId := st1.nextSegmentId + 1 },
       segment)

/-- DataSyncService.js `SubtitleStore.addTranslation`: find the first segment
with key `(videoId, startTime)`; when present set `translations[lang]`
(for any `lang` string) and update in place, otherwise resolve null. -/
def addTranslation (st : Store) (videoUrl : String) (startTime : ℚ)
    (lang : String) (translation : Option String) : Store × Option Segment :=
  let videoId := generateVideoId videoUrl
  match st.segments.find? (segKey videoId startTime) with
  | some seg =>
      let seg2 := { seg with translations := objSet seg.translations lang translation }
      ({ st with segments := replaceFirst st.segments (segKey videoId startTime) seg2 },
       some seg2)
  | none => (st, none)

/-! ### Derived notions used to state the claims about the store -/

/-- Number of segment records under one `(videoId, startTime)` key. -/
def countKey (st : Store) (videoId : String) (startTime : ℚ) : ℕ :=
  (st.segments.filter (segKey videoId startTime)).length

/-- One `saveSegment` call's data, shared key left implicit. -/
structure SaveCall where
  endTime : ℚ
  original : String
  sourceLang : String
  translations : String → Option String
  metadata : Metadata
  now : ℕ

/-- Run a sequence of `saveSegment` calls against one `(videoUrl, startTime)`
key. -/
def runSaves (st : Store) (videoUrl : String) (startTime : ℚ)
    (calls : List SaveCall) : Store :=
  calls.foldl
    (fun acc c =>
      (saveSegment acc videoUrl startTime c.endTime c.original c.sourceLang
        c.translations c.metadata c.now).1)
    st

/-- The last non-empty value supplied for a language across a sequence of
calls (`none` when every call left the slot empty or absent). -/
def suppliedSlot (calls : List SaveCall) (lang : String) : Option String :=
  calls.foldl
    (fun acc c =>
      match normalizeSlot (c.translations lang) with
      | some s => some s
      | none => acc)
    none

/-! ## Theorems -/

/-- Claim C5: for every scheduler adaptation step, if the observed processing
time exceeds 80% of the current period and the period is below 6000 ms the
period becomes `min 6000 (period + 500)`; if it is below 30% of the period
and the period is above 2000 ms the period becomes `max 2000 (period - 500)`;
otherwise the period is unchanged.  From the 3000 ms default, processing time
2800 ms yields 3500 ms, and a later 400 ms processing time yields 3000 ms;
the period never drops below 2000 ms. -/
theorem claim_C5_adaptive_scheduler :
    (∀ d pt : ℚ,
      (pt > d * (8 / 10) → d < 6000 → adaptChunkSize d pt = min 6000 (d + 500)) ∧
      (pt < d * (3 / 10) → 2000 < d → adaptChunkSize d pt = max 2000 (d - 500)) ∧
      (¬(pt > d * (8 / 10) ∧ d < 6000) → ¬(pt < d * (3 / 10) ∧ 2000 < d) →
        adaptChunkSize d pt = d) ∧
      (2000 ≤ d → 2000 ≤ adaptChunkSize d pt)) ∧
    adaptChunkSize 3000 2800 = 3500 ∧ adaptChunkSize 3500 400 = 3000 := by
  refine ⟨fun d pt => ⟨?_, ?_, ?_, ?_⟩, by norm_num [adaptChunkSize],
    by norm_num [adaptChunkSize]⟩
  · intro h1 h2
    simp only [adaptChunkSize]
    rw [if_pos ⟨h1, h2⟩]
  · intro h1 h2
    have hd : (0 : ℚ) ≤ d := by linarith
    have : ¬ (pt > d * (8 / 10) ∧ d < 6000) := by
      rintro ⟨h3, -⟩
      nlinarith
    simp only [adaptChunkSize]
    rw [if_neg this, if_pos ⟨h1, h2⟩]
  · intro h1 h2
    simp only [adaptChunkSize]
    rw [if_neg h1, if_neg h2]
  · intro hd
    simp only [adaptChunkSize]
    split_ifs with h1 h2
    · rcases le_total 6000 (d + 500) with h | h
      · rw [min_eq_left h]; norm_num
      · rw [min_eq_right h]; linarith
    · exact le_max_left _ _
    · exact hd

/-- Witness for C5 at the spec's scenario values. -/
theorem claim_C5_adaptive_scheduler_witness :
    adaptChunkSize 3000 2800 = min 6000 (3000 + 500) ∧
    2000 ≤ adaptChunkSize 3500 400 :=
  ⟨(claim_C5_adaptive_scheduler.1 3000 2800).1 (by norm_num) (by norm_num),
   (claim_C5_adaptive_scheduler.1 3500 400).2.2.2 (by norm_num)⟩

/-- Claim C6: every captured sample is stored as `x * 32768` clamped into
`[-32768, 32767]` — the result always lies in that range (no wraparound),
values at or beyond a bound are clamped to that bound, and an in-range
integral value is stored exactly.  (An in-range non-integral value is stored
truncated toward zero, as the `Int16Array` assignment converts it.) -/
theorem claim_C6_sample_clamping :
    ∀ x : ℚ,
      (-32768 ≤ encodeSample x ∧ encodeSample x ≤ 32767) ∧
      (32767 ≤ x * 32768 → encodeSample x = 32767) ∧
      (x * 32768 ≤ -32768 → encodeSample x = -32768) ∧
      (∀ m : ℤ, -32768 ≤ m → m ≤ 32767 → x * 32768 = (m : ℚ) →
        encodeSample x = m) := by
  intro x
  have hlo : (-32768 : ℚ) ≤ max (-32768) (min 32767 (x * 32768)) := le_max_left _ _
  have hhi : max (-32768) (min 32767 (x * 32768)) ≤ 32767 := by
    apply max_le
    · norm_num
    · exact min_le_left _ _
  refine ⟨?_, ?_, ?_, ?_⟩
  · unfold encodeSample truncToInt
    split_ifs with h
    · constructor
      · have : (0 : ℤ) ≤ ⌊max (-32768) (min 32767 (x * 32768))⌋ :=
          Int.floor_nonneg.mpr h
        omega
      · have := Int.floor_le_floor hhi
        simpa using this
    · constructor
      · have := Int.ceil_le_ceil hlo
        simpa using this
      · have h0 : ⌈max (-32768) (min 32767 (x * 32768))⌉ ≤ ⌈(0 : ℚ)⌉ :=
          Int.ceil_le_ceil (by linarith)
        simp only [Int.ceil_zero] at h0
        omega
  · intro h
    have h1 : min 32767 (x * 32768) = 32767 := min_eq_left h
    unfold encodeSample truncToInt
    rw [h1, max_eq_right (by norm_num : (-32768 : ℚ) ≤ 32767)]
    norm_num
  · intro h
    have h1 : min 32767 (x * 32768) = x * 32768 := min_eq_right (by linarith)
    unfold encodeSample truncToInt
    rw [h1, max_eq_left h]
    rw [if_neg (by norm_num),
      show ((-32768 : ℚ)) = ((-32768 : ℤ) : ℚ) by norm_num, Int.ceil_intCast]
  · intro m hm1 hm2 hx
    have h1 : min 32767 (x * 32768) = x * 32768 := by
      apply min_eq_right
      rw [hx]
      exact_mod_cast hm2
    have h2 : max (-32768) (x * 32768) = x * 32768 := by
      apply max_eq_right
      rw [hx]
      exact_mod_cast hm1
    unfold encodeSample truncToInt
    rw [h1, h2, hx]
    split_ifs with h
    · exact Int.floor_intCast m
    · exact Int.ceil_intCast m

/-- Witness for C6 at an over-range, an under-range and an in-range input. -/
theorem claim_C6_sample_clamping_witness :
    encodeSample 2 = 32767 ∧ encodeSample (-2) = -32768 ∧
    encodeSample (1 / 2) = 16384 :=
  ⟨(claim_C6_sample_clamping 2).2.1 (by norm_num),
   (claim_C6_sample_clamping (-2)).2.2.1 (by norm_num),
   (claim_C6_sample_clamping (1 / 2)).2.2.2 16384 (by norm_num) (by norm_num)
     (by norm_num)⟩

/-- Bound preservation for the ledger push. -/
theorem pushContext_length_le (ctx : List ContextEntry) (e : ContextEntry)
    (h : ctx.length ≤ 3) : (pushContext ctx e).length ≤ 3 := by
  simp only [pushContext, MAX_CONTEXT_SIZE]
  split_ifs with h1 <;>
    simp only [List.length_drop, List.length_append, List.length_singleton]
      at h1 ⊢ <;>
    omega

/-- Bound preservation for the guarded context update. -/
theorem updateContext_length_le (ctx : List ContextEntry) (o t : String)
    (h : ctx.length ≤ 3) : (updateContext ctx o t).length ≤ 3 := by
  unfold updateContext
  split_ifs with h1
  · exact pushContext_length_le _ _ h
  · exact h

/-- Claim C3: the context ledger never exceeds 3 entries — the push operation
preserves the bound, a 4th append evicts the oldest entry and keeps the three
most recent in arrival order, and both the proxied and the direct handler
leave the ledger within the bound. -/
theorem claim_C3_context_ledger :
    (∀ (ctx : List ContextEntry) (e : ContextEntry), ctx.length ≤ 3 →
      (pushContext ctx e).length ≤ 3) ∧
    (∀ e1 e2 e3 e4 : ContextEntry,
      pushContext (pushContext (pushContext (pushContext [] e1) e2) e3) e4 =
        [e2, e3, e4]) ∧
    (∀ cfg ctx fetchRes, ctx.length ≤ 3 →
      (handleBackendProcessing cfg ctx fetchRes).2.length ≤ 3) ∧
    (∀ key target mode ctx ft ftr, ctx.length ≤ 3 →
      (handleDirectProcessing key target mode ctx ft ftr).2.length ≤ 3) := by
  refine ⟨?_, ?_, ?_, ?_⟩
  · intro ctx e h
    exact pushContext_length_le ctx e h
  · intro e1 e2 e3 e4
    simp [pushContext, MAX_CONTEXT_SIZE]
  · intro cfg ctx fetchRes h
    unfold handleBackendProcessing
    split_ifs
    · exact h
    · match fetchRes with
      | .netError => exact h
      | .httpError _ _ => exact h
      | .ok r => exact updateContext_length_le _ _ _ h
  · intro key target mode ctx ft ftr h
    unfold handleDirectProcessing
    by_cases hkey : key = ""
    · rw [if_pos hkey]
      exact h
    · rw [if_neg hkey]
      cases ft with
      | netError => exact h
      | httpError s d => exact h
      | ok r =>
        by_cases htarget : target ≠ ""
        · rw [if_pos htarget]
          cases htr : translateText ftr with
          | error e => exact h
          | ok tr => exact updateContext_length_le _ _ _ h
        · rw [if_neg htarget]
          exact updateContext_length_le _ _ _ h

/-- Witness for C3 at a concrete ledger and entry. -/
theorem claim_C3_context_ledger_witness :
    (pushContext [⟨"a", "b"⟩, ⟨"c", "d"⟩, ⟨"e", "f"⟩] ⟨"g", "h"⟩).length ≤ 3 :=
  claim_C3_context_ledger.1 [⟨"a", "b"⟩, ⟨"c", "d"⟩, ⟨"e", "f"⟩] ⟨"g", "h"⟩
    (by simp)

/-- Claim C4 as stated is false: in the local-backend (WebSocket) processing
mode the chunk is dispatched with no freshness check — here a chunk whose age
`now - videoTime * 1000 = 1000000 ms` far exceeds the 5000 ms threshold is
still sent. -/
theorem claim_C4_counterexample :
    sendToLocalBackend true 1000000 0 = true ∧
    (1000000 : ℚ) - 0 * 1000 > MAX_LAG_MS := by
  refine ⟨rfl, by norm_num [MAX_LAG_MS]⟩

/-- Claim C4 amended: the freshness guard applies only in the direct Groq API
dispatch path — there, a chunk whose age `now - videoTime * 1000` exceeds
5000 ms is dropped with no network call and the lag accumulator is reset to
0.  The local-backend WebSocket path sends without any age check. -/
theorem claim_C4_groq_freshness_guard :
    ∀ lagAcc now videoTime : ℚ, now - videoTime * 1000 > MAX_LAG_MS →
      sendToGroqAPI lagAcc now videoTime =
        { networkCall := false, lagAccumulator := 0 } := by
  intro lagAcc now videoTime h
  unfold sendToGroqAPI
  rw [if_pos h]

/-- Witness for C4 (amended) at a stale chunk. -/
theorem claim_C4_groq_freshness_guard_witness :
    sendToGroqAPI 7 1000000 0 = { networkCall := false, lagAccumulator := 0 } :=
  claim_C4_groq_freshness_guard 7 1000000 0 (by norm_num [MAX_LAG_MS])

/-- Claim C7 as stated is false: when the transcription leg succeeds but the
translation leg fails at the network level (the `fetch` rejects), the handler
throws instead of returning the transcription with an empty translation —
here the whole call produces an error and no result carries the original
text. -/
theorem claim_C7_counterexample :
    (handleDirectProcessing "key" "vi" "groq" [] (.ok ⟨"hello"⟩) .netError).1 =
      .error .network ∧
    ∀ r, (handleDirectProcessing "key" "vi" "groq" [] (.ok ⟨"hello"⟩)
      .netError).1 ≠ .ok r := by
  refine ⟨rfl, ?_⟩
  intro r h
  simp [handleDirectProcessing, translateText] at h

/-- Claim C7 amended: in direct mode with a target language requested and a
successful transcription, a non-2xx response on the translation leg degrades
to an empty translation with the original transcription still returned; a
network-level failure of the translation leg instead propagates as an error
and discards the transcription. -/
theorem claim_C7_translation_degrades :
    ∀ (key target mode : String) (ctx : List ContextEntry)
      (trans : TransResult) (status : ℕ) (detail : String),
      key ≠ "" → target ≠ "" →
      (handleDirectProcessing key target mode ctx (.ok trans)
          (.httpError status detail)).1 =
        .ok { text := trans.text, original := trans.text, translated := "",
              provider := mode } ∧
      (handleDirectProcessing key target mode ctx (.ok trans) .netError).1 =
        .error .network := by
  intro key target mode ctx trans status detail hkey htarget
  constructor <;> simp [handleDirectProcessing, hkey, htarget, translateText]

/-- Witness for C7 (amended) at a concrete failed translation response. -/
theorem claim_C7_translation_degrades_witness :
    (handleDirectProcessing "k" "vi" "groq" [] (.ok ⟨"hello"⟩)
        (.httpError 500 "boom")).1 =
      .ok { text := "hello", original := "hello", translated := "",
            provider := "groq" } :=
  (claim_C7_translation_degrades "k" "vi" "groq" [] ⟨"hello"⟩ 500 "boom"
    (by decide) (by decide)).1

/-- Decoding a base64 character produced from a sextet recovers the
sextet. -/
theorem b64Val_b64Char : ∀ k, k < 64 → b64Val (b64Char k) = k := by decide

/-- No base64 alphabet character is the padding character. -/
theorem b64Char_ne_pad : ∀ k, k < 64 → ¬(b64Char k = '=') := by decide

/-- `atob` inverts `btoa` on byte sequences. -/
theorem atob_btoa : ∀ bs : List ℕ, (∀ b ∈ bs, b < 256) →
    atobChars (btoaBytes bs) = bs
  | [], _ => rfl
  | [a], h => by
      have ha : a < 256 := h a (by simp)
      simp only [btoaBytes, atobChars, if_true]
      rw [b64Val_b64Char _ (by omega), b64Val_b64Char _ (by omega)]
      have : a / 4 * 4 + a % 4 * 16 / 16 = a := by omega
      rw [this]
  | [a, b], h => by
      have ha : a < 256 := h a (by simp)
      have hb : b < 256 := h b (by simp)
      simp only [btoaBytes, atobChars]
      rw [if_neg fun hp => b64Char_ne_pad (b % 16 * 4) (by omega) hp]
      simp only [if_true]
      rw [b64Val_b64Char _ (by omega), b64Val_b64Char _ (by omega),
        b64Val_b64Char _ (by omega)]
      have h1 : a / 4 * 4 + (a % 4 * 16 + b / 16) / 16 = a := by omega
      have h2 : (a % 4 * 16 + b / 16) % 16 * 16 + b % 16 * 4 / 4 = b := by omega
      rw [h1, h2]
  | a :: b :: c :: d :: rest, h => by
      have ha : a < 256 := h a (by simp)
      have hb : b < 256 := h b (by simp)
      have hc : c < 256 := h c (by simp)
      have ih := atob_btoa (d :: rest) fun x hx => h x (by simp [hx])
      simp only [btoaBytes] at ih ⊢
      simp only [atobChars]
      rw [if_neg (b64Char_ne_pad _ (by omega)),
        if_neg (b64Char_ne_pad _ (by omega))]
      rw [b64Val_b64Char _ (by omega), b64Val_b64Char _ (by omega),
        b64Val_b64Char _ (by omega), b64Val_b64Char _ (by omega)]
      have h1 : a / 4 * 4 + (a % 4 * 16 + b / 16) / 16 = a := by omega
      have h2 : (a % 4 * 16 + b / 16) % 16 * 16 + (b % 16 * 4 + c / 64) / 4 = b := by
        omega
      have h3 : (b % 16 * 4 + c / 64) % 4 * 64 + c % 64 = c := by omega
      rw [h1, h2, h3, ih]
  | [a, b, c], h => by
      have ha : a < 256 := h a (by simp)
      have hb : b < 256 := h b (by simp)
      have hc : c < 256 := h c (by simp)
      simp only [btoaBytes, atobChars]
      rw [if_neg (b64Char_ne_pad _ (by omega)),
        if_neg (b64Char_ne_pad _ (by omega))]
      rw [b64Val_b64Char _ (by omega), b64Val_b64Char _ (by omega),
        b64Val_b64Char _ (by omega), b64Val_b64Char _ (by omega)]
      have h1 : a / 4 * 4 + (a % 4 * 16 + b / 16) / 16 = a := by omega
      have h2 : (a % 4 * 16 + b / 16) % 16 * 16 + (b % 16 * 4 + c / 64) / 4 = b := by
        omega
      have h3 : (b % 16 * 4 + c / 64) % 4 * 64 + c % 64 = c := by omega
      rw [h1, h2, h3]

/-- The two bytes of an encoded 16-bit sample are bytes. -/
theorem int16ToBytesLE_lt (v : ℤ) : ∀ b ∈ int16ToBytesLE v, b < 256 := by
  have h1 : (0 : ℤ) ≤ v % 65536 := Int.emod_nonneg v (by norm_num)
  have h2 : v % 65536 < 65536 := Int.emod_lt_of_pos v (by norm_num)
  simp only [int16ToBytesLE, List.mem_cons, List.mem_singleton]
  rintro b (rfl | rfl | h)
  · omega
  · omega
  · cases h

/-- Decoding two little-endian bytes of an in-range 16-bit sample recovers
the sample. -/
theorem bytesToInt16_int16 (v : ℤ) (h1 : -32768 ≤ v) (h2 : v ≤ 32767) :
    bytesToInt16 ((v % 65536).toNat % 256) ((v % 65536).toNat / 256) = v := by
  have h3 : (0 : ℤ) ≤ v % 65536 := Int.emod_nonneg v (by norm_num)
  have h4 : v % 65536 < 65536 := Int.emod_lt_of_pos v (by norm_num)
  have h5 : v % 65536 = if 0 ≤ v then v else v + 65536 := by
    split_ifs with h
    · rw [Int.emod_eq_of_lt h (by omega)]
    · omega
  simp only [bytesToInt16]
  split_ifs with h6 <;> omega

/-- Decoding the concatenated little-endian bytes of in-range samples
recovers the samples. -/
theorem bytesToInt16List_flatMap : ∀ samples : List ℤ,
    (∀ v ∈ samples, -32768 ≤ v ∧ v ≤ 32767) →
    bytesToInt16List (samples.flatMap int16ToBytesLE) = samples
  | [], _ => rfl
  | v :: rest, h => by
      have hv := h v (by simp)
      have ih := bytesToInt16List_flatMap rest fun x hx => h x (by simp [hx])
      show bytesToInt16 ((v % 65536).toNat % 256) ((v % 65536).toNat / 256) ::
          bytesToInt16List (rest.flatMap int16ToBytesLE) = v :: rest
      rw [ih, bytesToInt16_int16 v hv.1 hv.2]

/-- Length of the concatenated sample bytes. -/
theorem flatMap_int16_length : ∀ samples : List ℤ,
    (samples.flatMap int16ToBytesLE).length = 2 * samples.length
  | [] => rfl
  | v :: rest => by
      have ih := flatMap_int16_length rest
      show ((v % 65536).toNat % 256 :: (v % 65536).toNat / 256 ::
          rest.flatMap int16ToBytesLE).length = 2 * (v :: rest).length
      simp only [List.length_cons, ih]
      omega

/-- The fixed WAV header prefix is 40 bytes long. -/
theorem wavHeaderPre_length (ds sr : ℕ) : (wavHeaderPre ds sr).length = 40 := by
  simp [wavHeaderPre, asciiBytes, u32LE, u16LE]

/-- A 32-bit little-endian field decodes to its value. -/
theorem u32FromLE_u32LE (x : ℕ) (h : x < 4294967296) :
    u32FromLE (u32LE x) = x := by
  simp only [u32LE, u32FromLE, List.getD_cons_zero, List.getD_cons_succ]
  omega

/-- Claim C10: round-trip of the audio encoding pipeline — for a sequence of
in-range 16-bit samples (whose PCM byte count fits the 32-bit header field),
base64-encoding the raw PCM buffer with `arrayBufferToBase64` and decoding it
with `base64ToBlob`/`createWavFile` yields a WAV buffer of exactly
`44 + 2 n` bytes whose header declares a data size of `2 n` bytes at offset
40 and whose data section holds the original samples, in order,
little-endian. -/
theorem claim_C10_wav_roundtrip :
    ∀ samples : List ℤ,
      (∀ v ∈ samples, -32768 ≤ v ∧ v ≤ 32767) →
      2 * samples.length < 4294967296 →
      (base64ToBlob (arrayBufferToBase64 (samples.flatMap int16ToBytesLE))).length =
          44 + 2 * samples.length ∧
      u32FromLE (((base64ToBlob (arrayBufferToBase64
            (samples.flatMap int16ToBytesLE))).drop 40).take 4) =
          2 * samples.length ∧
      (base64ToBlob (arrayBufferToBase64 (samples.flatMap int16ToBytesLE))).drop 44 =
          samples.flatMap int16ToBytesLE ∧
      bytesToInt16List ((base64ToBlob (arrayBufferToBase64
            (samples.flatMap int16ToBytesLE))).drop 44) =
          samples := by
  intro samples hrange hsize
  have hbytes : ∀ b ∈ samples.flatMap int16ToBytesLE, b < 256 := by
    intro b hb
    rcases List.mem_flatMap.mp hb with ⟨v, _, hv⟩
    exact int16ToBytesLE_lt v b hv
  have hdecode :
      atobChars (arrayBufferToBase64 (samples.flatMap int16ToBytesLE)).data =
        samples.flatMap int16ToBytesLE := by
    show atobChars (String.mk (btoaBytes (samples.flatMap int16ToBytesLE))).data =
      samples.flatMap int16ToBytesLE
    exact atob_btoa _ hbytes
  have hsamples :
      bytesToInt16List (atobChars
          (arrayBufferToBase64 (samples.flatMap int16ToBytesLE)).data) = samples := by
    rw [hdecode]
    exact bytesToInt16List_flatMap samples hrange
  have hwav : base64ToBlob (arrayBufferToBase64 (samples.flatMap int16ToBytesLE)) =
      wavHeaderPre (samples.length * 2) 16000 ++ u32LE (samples.length * 2) ++
        samples.flatMap int16ToBytesLE := by
    unfold base64ToBlob createWavFile
    rw [hsamples]
  have hlen44 : (wavHeaderPre (samples.length * 2) 16000 ++
      u32LE (samples.length * 2)).length = 44 := by
    simp [wavHeaderPre_length, u32LE]
  have hdrop44 : (base64ToBlob (arrayBufferToBase64
      (samples.flatMap int16ToBytesLE))).drop 44 =
      samples.flatMap int16ToBytesLE := by
    rw [hwav]
    rw [show (44 : ℕ) = (wavHeaderPre (samples.length * 2) 16000 ++
      u32LE (samples.length * 2)).length from hlen44.symm]
    exact List.drop_left _ _
  refine ⟨?_, ?_, hdrop44, ?_⟩
  · rw [hwav]
    simp only [List.length_append, wavHeaderPre_length, u32LE,
      flatMap_int16_length]
    simp only [List.length_cons, List.length_nil]
  · have hdrop40 : (base64ToBlob (arrayBufferToBase64
        (samples.flatMap int16ToBytesLE))).drop 40 =
        u32LE (samples.length * 2) ++ samples.flatMap int16ToBytesLE := by
      rw [hwav, List.append_assoc]
      rw [show (40 : ℕ) = (wavHeaderPre (samples.length * 2) 16000).length from
        (wavHeaderPre_length _ _).symm]
      exact List.drop_left _ _
    rw [hdrop40]
    rw [show (4 : ℕ) = (u32LE (samples.length * 2)).length by simp [u32LE]]
    rw [List.take_left]
    rw [u32FromLE_u32LE _ (by omega)]
    omega
  · rw [hdrop44]
    exact bytesToInt16List_flatMap samples hrange

/-- Witness for C10 at a concrete two-sample buffer. -/
theorem claim_C10_wav_roundtrip_witness :
    (∀ v ∈ ([1000, -2] : List ℤ), -32768 ≤ v ∧ v ≤ 32767) ∧
    (base64ToBlob (arrayBufferToBase64
        (([1000, -2] : List ℤ).flatMap int16ToBytesLE))).length = 44 + 2 * 2 :=
  ⟨by decide, (claim_C10_wav_roundtrip [1000, -2] (by decide) (by decide)).1⟩

/-! ### Association-list lemmas for the translation maps -/

/-- Key membership matches the `any` test used by `objSet`. -/
theorem any_key_eq_true (tr : Translations) (k : String) :
    tr.any (fun p => p.1 == k) = true ↔ k ∈ trKeys tr := by
  simp [List.any_eq_true, trKeys, List.mem_map, beq_iff_eq]

/-- Setting an existing key rewrites the first matching pair. -/
theorem find?_map_set :
    ∀ (tr : Translations) (k : String) (v : Option String),
      tr.any (fun p => p.1 == k) = true →
      (tr.map fun p => if p.1 == k then (k, v) else p).find?
          (fun p => p.1 == k) = some (k, v)
  | [], _, _, h => by cases h
  | p :: rest, k, v, h => by
      rw [List.map_cons]
      by_cases hp : p.1 = k
      · rw [show (if (p.1 == k) = true then ((k : String), v) else p) = (k, v)
          from if_pos (by simp [hp])]
        rw [List.find?_cons_of_pos _ (by simp)]
      · have hrest : rest.any (fun p => p.1 == k) = true := by
          simpa [List.any_cons, hp] using h
        rw [show (if (p.1 == k) = true then ((k : String), v) else p) = p
          from if_neg (by simp [hp])]
        rw [List.find?_cons_of_neg _ (by simp [hp])]
        exact find?_map_set rest k v hrest

/-- Looking up an untouched key through the rewrite map. -/
theorem find?_map_set_ne :
    ∀ (tr : Translations) (k : String) (v : Option String) (q : String),
      q ≠ k →
      (tr.map fun p => if p.1 == k then (k, v) else p).find?
          (fun p => p.1 == q) = tr.find? (fun p => p.1 == q)
  | [], _, _, _, _ => rfl
  | p :: rest, k, v, q, hq => by
      rw [List.map_cons]
      by_cases hp : p.1 = k
      · have h2 : p.1 ≠ q := fun h' => hq (by rw [← h', hp])
        rw [show (if (p.1 == k) = true then ((k : String), v) else p) = (k, v)
          from if_pos (by simp [hp])]
        rw [List.find?_cons_of_neg _ (by simp; exact fun h => hq h.symm)]
        rw [List.find?_cons_of_neg _ (by simp [h2])]
        exact find?_map_set_ne rest k v q hq
      · rw [show (if (p.1 == k) = true then ((k : String), v) else p) = p
          from if_neg (by simp [hp])]
        by_cases hpq : p.1 = q
        · rw [List.find?_cons_of_pos _ (by simp [hpq]),
            List.find?_cons_of_pos _ (by simp [hpq])]
        · rw [List.find?_cons_of_neg _ (by simp [hpq]),
            List.find?_cons_of_neg _ (by simp [hpq])]
          exact find?_map_set_ne rest k v q hq

/-- `objSet` stores the assigned value under the assigned key. -/
theorem trLookup_objSet_self (tr : Translations) (k : String)
    (v : Option String) : trLookup (objSet tr k v) k = v := by
  unfold objSet trLookup
  by_cases hany : tr.any (fun p => p.1 == k) = true
  · rw [if_pos hany, find?_map_set tr k v hany]
  · rw [if_neg hany, List.find?_append]
    have hnone : tr.find? (fun p => p.1 == k) = none := by
      rw [List.find?_eq_none]
      intro x hx hbx
      exact hany (List.any_eq_true.mpr ⟨x, hx, hbx⟩)
    rw [hnone]
    simp [List.find?]

/-- `objSet` leaves every other key's value unchanged. -/
theorem trLookup_objSet_ne (tr : Translations) (k : String) (v : Option String)
    (q : String) (hq : q ≠ k) : trLookup (objSet tr k v) q = trLookup tr q := by
  unfold objSet trLookup
  by_cases hany : tr.any (fun p => p.1 == k) = true
  · rw [if_pos hany, find?_map_set_ne tr k v q hq]
  · rw [if_neg hany, List.find?_append]
    have h1 : ¬ ((k : String) = q) := fun h => hq h.symm
    have : List.find? (fun p => p.1 == q) [(k, v)] = none := by
      rw [List.find?_cons_of_neg _ (by simp [h1])]
      rfl
    rw [this]
    cases tr.find? (fun p => p.1 == q) <;> rfl

/-- `objSet` on an existing key preserves the key list. -/
theorem trKeys_objSet_mem (tr : Translations) (k : String) (v : Option String)
    (h : k ∈ trKeys tr) : trKeys (objSet tr k v) = trKeys tr := by
  unfold objSet
  rw [if_pos ((any_key_eq_true tr k).mpr h)]
  unfold trKeys
  rw [List.map_map]
  apply List.map_congr_left
  intro p hp
  by_cases hpk : p.1 = k
  · simp [hpk]
  · simp [hpk]

/-- `objSet` on a fresh key appends it. -/
theorem trKeys_objSet_not_mem (tr : Translations) (k : String)
    (v : Option String) (h : k ∉ trKeys tr) :
    trKeys (objSet tr k v) = trKeys tr ++ [k] := by
  unfold objSet
  rw [if_neg fun hc => h ((any_key_eq_true tr k).mp hc)]
  simp [trKeys]

/-- Lookup in a freshly built pair list keyed by a list containing the key. -/
theorem trLookup_map_pairs :
    ∀ (ls : List String) (g : String → Option String) (k : String), k ∈ ls →
      trLookup (ls.map fun l => (l, g l)) k = g k
  | [], _, _, h => by cases h
  | l :: rest, g, k, h => by
      unfold trLookup
      rw [List.map_cons]
      by_cases hl : l = k
      · rw [List.find?_cons_of_pos _ (by simp [hl])]
        show g l = g k
        rw [hl]
      · have hk : k ∈ rest := by
          rcases List.mem_cons.mp h with h1 | h1
          · exact absurd h1.symm hl
          · exact h1
        rw [List.find?_cons_of_neg _ (by simp [hl])]
        exact trLookup_map_pairs rest g k hk

/-- The fold of the merge loop does not touch keys outside its pair list. -/
theorem trLookup_mergeFold_not_mem :
    ∀ (ps : List (String × Option String)) (acc : Translations) (k : String),
      (∀ p ∈ ps, p.1 ≠ k) →
      trLookup (mergeFold acc ps) k = trLookup acc k
  | [], _, _, _ => rfl
  | p :: rest, acc, k, h => by
      have hrest := trLookup_mergeFold_not_mem rest
      have hstep : trLookup
          (match p.2 with
           | some s => if s = "" then acc else objSet acc p.1 (some s)
           | none => acc) k = trLookup acc k := by
        cases hv : p.2 with
        | none => rfl
        | some s =>
            by_cases hs : s = ""
            · simp [hs]
            · simp only [if_neg hs]
              exact trLookup_objSet_ne acc p.1 (some s) k
                fun hk => h p (by simp) hk.symm
      calc trLookup (mergeFold acc (p :: rest)) k
      _ = trLookup (mergeFold
            (match p.2 with
             | some s => if s = "" then acc else objSet acc p.1 (some s)
             | none => acc) rest) k := rfl
      _ = trLookup acc k := by
            rw [hrest _ k fun q hq => h q (by simp [hq])]
            exact hstep

/-- A normalized slot is never the empty string. -/
theorem normalizeSlot_ne_empty (v : Option String) (s : String)
    (h : normalizeSlot v = some s) : s ≠ "" := by
  cases v with
  | none => cases h
  | some t =>
      by_cases ht : t = ""
      · simp [normalizeSlot, ht] at h
      · simp only [normalizeSlot, if_neg ht, Option.some.injEq] at h
        rw [← h]
        exact ht

/-- Merging a normalized pair list built over a duplicate-free key list:
the result at a listed key is the incoming non-empty value when there is
one, and the previous value otherwise. -/
theorem trLookup_mergeFold_build :
    ∀ (ls : List String), ls.Nodup →
      ∀ (ex : Translations) (f : String → Option String) (k : String),
        k ∈ ls →
        trLookup (mergeFold ex (ls.map fun l => (l, normalizeSlot (f l)))) k =
          (match normalizeSlot (f k) with
           | some s => some s
           | none => trLookup ex k)
  | [], _, _, _, _, h => by cases h
  | l :: rest, hnd, ex, f, k, h => by
      have hndr : rest.Nodup := (List.nodup_cons.mp hnd).2
      have hstep : mergeFold ex ((l :: rest).map fun x => (x, normalizeSlot (f x))) =
          mergeFold
            (match normalizeSlot (f l) with
             | some s => if s = "" then ex else objSet ex l (some s)
             | none => ex)
            (rest.map fun x => (x, normalizeSlot (f x))) := rfl
      by_cases hl : l = k
      · subst hl
        have hnotin : ∀ p ∈ rest.map fun x => (x, normalizeSlot (f x)), p.1 ≠ l := by
          intro p hp
          rcases List.mem_map.mp hp with ⟨x, hx, rfl⟩
          intro hxl
          exact (List.nodup_cons.mp hnd).1 (hxl ▸ hx)
        rw [hstep, trLookup_mergeFold_not_mem _ _ _ hnotin]
        cases hn : normalizeSlot (f l) with
        | none => rfl
        | some s =>
            have hs := normalizeSlot_ne_empty _ _ hn
            simp only [if_neg hs]
            exact trLookup_objSet_self ex l (some s)
      · have hk : k ∈ rest := by
          rcases List.mem_cons.mp h with h1 | h1
          · exact absurd h1.symm hl
          · exact h1
        rw [hstep, trLookup_mergeFold_build rest hndr _ f k hk]
        have hex : trLookup
            (match normalizeSlot (f l) with
             | some s => if s = "" then ex else objSet ex l (some s)
             | none => ex) k = trLookup ex k := by
          cases hn : normalizeSlot (f l) with
          | none => rfl
          | some s =>
              have hs := normalizeSlot_ne_empty _ _ hn
              simp only [if_neg hs]
              exact trLookup_objSet_ne ex l (some s) k fun hkl => hl hkl.symm
        rw [hex]

/-- The merge loop preserves the key list when every merged key already
exists. -/
theorem trKeys_mergeFold :
    ∀ (ps : List (String × Option String)) (acc : Translations),
      (∀ p ∈ ps, p.1 ∈ trKeys acc) →
      trKeys (mergeFold acc ps) = trKeys acc
  | [], _, _ => rfl
  | p :: rest, acc, h => by
      have hkeys : trKeys
          (match p.2 with
           | some s => if s = "" then acc else objSet acc p.1 (some s)
           | none => acc) = trKeys acc := by
        cases p.2 with
        | none => rfl
        | some s =>
            by_cases hs : s = ""
            · simp [hs]
            · simp only [if_neg hs]
              exact trKeys_objSet_mem acc p.1 (some s) (h p (by simp))
      calc trKeys (mergeFold acc (p :: rest))
      _ = trKeys (mergeFold
            (match p.2 with
             | some s => if s = "" then acc else objSet acc p.1 (some s)
             | none => acc) rest) := rfl
      _ = trKeys acc := by
            rw [trKeys_mergeFold rest _ ?_, hkeys]
            intro q hq
            rw [hkeys]
            exact h q (by simp [hq])

/-- The built `translationsObj` carries exactly the supported language
keys. -/
theorem trKeys_build (f : String → Option String) :
    trKeys (buildTranslationsObj f) = SUPPORTED_LANGUAGES := by
  unfold trKeys buildTranslationsObj
  rw [List.map_map]
  rw [show (Prod.fst ∘ fun lang => (lang, normalizeSlot (f lang))) =
    fun lang : String => lang from rfl]
  rw [List.map_id']

/-- Lookup in the built `translationsObj` gives the normalized slot. -/
theorem trLookup_build (f : String → Option String) (k : String)
    (hk : k ∈ SUPPORTED_LANGUAGES) :
    trLookup (buildTranslationsObj f) k = normalizeSlot (f k) :=
  trLookup_map_pairs SUPPORTED_LANGUAGES _ k hk

/-- The supported language list has no duplicate codes. -/
theorem supported_nodup : SUPPORTED_LANGUAGES.Nodup := by decide

/-- The merge rule of `saveSegment`, per supported language: a non-empty
incoming slot overwrites, anything else leaves the existing value. -/
theorem trLookup_merge_build (ex : Translations) (f : String → Option String)
    (k : String) (hk : k ∈ SUPPORTED_LANGUAGES) :
    trLookup (mergeTranslations ex (buildTranslationsObj f)) k =
      (match normalizeSlot (f k) with
       | some s => some s
       | none => trLookup ex k) :=
  trLookup_mergeFold_build SUPPORTED_LANGUAGES supported_nodup ex f k hk

/-- Unfolding `suppliedSlot` over a final call. -/
theorem suppliedSlot_append (cs : List SaveCall) (c : SaveCall) (k : String) :
    suppliedSlot (cs ++ [c]) k =
      match normalizeSlot (c.translations k) with
      | some s => some s
      | none => suppliedSlot cs k := by
  unfold suppliedSlot
  rw [List.foldl_append]
  rfl

/-- The fold underlying `suppliedSlot` is `none` exactly when the seed is
`none` and every call's slot normalizes to `none`. -/
theorem suppliedSlot_fold_none :
    ∀ (cs : List SaveCall) (acc : Option String) (k : String),
      cs.foldl
          (fun acc c =>
            match normalizeSlot (c.translations k) with
            | some s => some s
            | none => acc) acc = none ↔
        acc = none ∧ ∀ c ∈ cs, normalizeSlot (c.translations k) = none
  | [], acc, k => by simp
  | c :: rest, acc, k => by
      rw [List.foldl_cons, suppliedSlot_fold_none rest _ k]
      constructor
      · rintro ⟨h1, h2⟩
        cases hn : normalizeSlot (c.translations k) with
        | none =>
            rw [hn] at h1
            refine ⟨h1, fun c' hc' => ?_⟩
            rcases List.mem_cons.mp hc' with rfl | hr
            · exact hn
            · exact h2 c' hr
        | some s => rw [hn] at h1; cases h1
      · rintro ⟨h1, h2⟩
        have hc := h2 c (by simp)
        rw [hc]
        exact ⟨h1, fun c' hc' => h2 c' (by simp [hc'])⟩

/-- `suppliedSlot` is empty exactly when no call ever supplied a non-empty
value for the language. -/
theorem suppliedSlot_eq_none_iff (cs : List SaveCall) (k : String) :
    suppliedSlot cs k = none ↔
      ∀ c ∈ cs, normalizeSlot (c.translations k) = none := by
  unfold suppliedSlot
  rw [suppliedSlot_fold_none]
  simp

/-- `replaceFirst` on a list whose first match is the distinguished
element. -/
theorem replaceFirst_append :
    ∀ (l1 : List Segment) (seg : Segment) (l2 : List Segment)
      (p : Segment → Bool) (v : Segment),
      (∀ x ∈ l1, p x = false) → p seg = true →
      replaceFirst (l1 ++ seg :: l2) p v = l1 ++ v :: l2
  | [], seg, l2, p, v, _, hseg => by
      show (if p seg = true then v :: l2 else seg :: replaceFirst l2 p v) =
        v :: l2
      rw [if_pos hseg]
  | x :: rest, seg, l2, p, v, h, hseg => by
      have hx : p x = false := h x (by simp)
      rw [List.cons_append]
      show (if p x = true then v :: (rest ++ seg :: l2)
        else x :: replaceFirst (rest ++ seg :: l2) p v) = x :: (rest ++ v :: l2)
      rw [if_neg (by simp [hx])]
      rw [replaceFirst_append rest seg l2 p v (fun y hy => h y (by simp [hy]))
        hseg]

/-- Every element of a `replaceFirst` result is the new value or an old
element. -/
theorem mem_replaceFirst :
    ∀ (l : List Segment) (p : Segment → Bool) (v x : Segment),
      x ∈ replaceFirst l p v → x = v ∨ x ∈ l
  | [], _, _, _, h => by cases h
  | y :: rest, p, v, x, h => by
      by_cases hy : p y = true
      · rw [show replaceFirst (y :: rest) p v = v :: rest from by
          show (if p y = true then _ else _) = _
          rw [if_pos hy]] at h
        rcases List.mem_cons.mp h with rfl | h2
        · exact Or.inl rfl
        · exact Or.inr (by simp [h2])
      · rw [show replaceFirst (y :: rest) p v = y :: replaceFirst rest p v from by
          show (if p y = true then _ else _) = _
          rw [if_neg hy]] at h
        rcases List.mem_cons.mp h with rfl | h2
        · exact Or.inr (by simp)
        · rcases mem_replaceFirst rest p v x h2 with h3 | h3
          · exact Or.inl h3
          · exact Or.inr (by simp [h3])

/-- `saveVideo` leaves the segment store untouched. -/
theorem saveVideo_segments (st : Store) (url title : String) (d : ℚ) (now : ℕ) :
    (saveVideo st url title d now).1.segments = st.segments := rfl

/-- One `saveSegment` call against a store holding exactly one segment under
the key updates that segment in place by the merge rule. -/
theorem saveSegment_step (st : Store) (url : String) (t : ℚ) (c : SaveCall)
    (l1 : List Segment) (seg : Segment) (l2 : List Segment)
    (hsegs : st.segments = l1 ++ seg :: l2)
    (hl1 : ∀ x ∈ l1, segKey (generateVideoId url) t x = false)
    (hseg : segKey (generateVideoId url) t seg = true) :
    (saveSegment st url t c.endTime c.original c.sourceLang
        c.translations c.metadata c.now).1.segments =
      l1 ++ { seg with
        translations := mergeTranslations seg.translations
          (buildTranslationsObj c.translations),
        original := c.original, sourceLang := c.sourceLang } :: l2 := by
  have hsv : (saveVideo st url "" 0 c.now).1.segments = st.segments := rfl
  have hfind : ((saveVideo st url "" 0 c.now).1.segments).find?
      (segKey (generateVideoId url) t) = some seg := by
    rw [hsv, hsegs, List.find?_append]
    rw [List.find?_eq_none.mpr fun x hx => by simp [hl1 x hx]]
    rw [List.find?_cons_of_pos _ hseg]
    rfl
  simp only [saveSegment, hfind]
  rw [hsv, hsegs]
  exact replaceFirst_append l1 seg l2 _ _ hl1 hseg

/-- One `saveSegment` call against a store with no segment under the key
appends a fresh record built from the call. -/
theorem saveSegment_fresh (st : Store) (url : String) (t : ℚ) (c : SaveCall)
    (h0 : ∀ s ∈ st.segments, segKey (generateVideoId url) t s = false) :
    (saveSegment st url t c.endTime c.original c.sourceLang
        c.translations c.metadata c.now).1.segments =
      st.segments ++ (saveSegment st url t c.endTime c.original c.sourceLang
        c.translations c.metadata c.now).2 :: [] ∧
    segKey (generateVideoId url) t (saveSegment st url t c.endTime c.original
      c.sourceLang c.translations c.metadata c.now).2 = true ∧
    (saveSegment st url t c.endTime c.original c.sourceLang c.translations
      c.metadata c.now).2.translations = buildTranslationsObj c.translations := by
  have hsv : (saveVideo st url "" 0 c.now).1.segments = st.segments := rfl
  have hfind : ((saveVideo st url "" 0 c.now).1.segments).find?
      (segKey (generateVideoId url) t) = none := by
    rw [hsv, List.find?_eq_none]
    intro x hx
    simp [h0 x hx]
  refine ⟨?_, ?_, ?_⟩
  · simp only [saveSegment, hfind]
    rw [hsv]
  · simp only [saveSegment, hfind]
    simp [segKey]
  · simp only [saveSegment, hfind]

/-- Running further saves against a store holding exactly one segment under
the key keeps exactly one segment there, in place, with slots tracking the
last non-empty supplied value. -/
theorem runSaves_spec :
    ∀ (cs : List SaveCall) (st : Store) (url : String) (t : ℚ)
      (done : List SaveCall) (l1 : List Segment) (seg : Segment)
      (l2 : List Segment),
      st.segments = l1 ++ seg :: l2 →
      (∀ x ∈ l1, segKey (generateVideoId url) t x = false) →
      (∀ x ∈ l2, segKey (generateVideoId url) t x = false) →
      segKey (generateVideoId url) t seg = true →
      (∀ k ∈ SUPPORTED_LANGUAGES,
        trLookup seg.translations k = suppliedSlot done k) →
      ∃ seg', (runSaves st url t cs).segments = l1 ++ seg' :: l2 ∧
        segKey (generateVideoId url) t seg' = true ∧
        ∀ k ∈ SUPPORTED_LANGUAGES,
          trLookup seg'.translations k = suppliedSlot (done ++ cs) k
  | [], st, url, t, done, l1, seg, l2, hsegs, hl1, hl2, hseg, hslots => by
      refine ⟨seg, ?_, hseg, ?_⟩
      · simpa [runSaves] using hsegs
      · simpa using hslots
  | c :: rest, st, url, t, done, l1, seg, l2, hsegs, hl1, hl2, hseg, hslots => by
      have hstep := saveSegment_step st url t c l1 seg l2 hsegs hl1 hseg
      have hkey' : segKey (generateVideoId url) t
          { seg with
            translations := mergeTranslations seg.translations
              (buildTranslationsObj c.translations),
            original := c.original, sourceLang := c.sourceLang } = true := hseg
      have hslots' : ∀ k ∈ SUPPORTED_LANGUAGES,
          trLookup (mergeTranslations seg.translations
            (buildTranslationsObj c.translations)) k =
            suppliedSlot (done ++ [c]) k := by
        intro k hk
        rw [trLookup_merge_build seg.translations c.translations k hk]
        rw [suppliedSlot_append done c k]
        cases normalizeSlot (c.translations k) with
        | some s => rfl
        | none => exact hslots k hk
      obtain ⟨seg', h1, h2, h3⟩ := runSaves_spec rest
        (saveSegment st url t c.endTime c.original c.sourceLang
          c.translations c.metadata c.now).1 url t (done ++ [c]) l1
        { seg with
          translations := mergeTranslations seg.translations
            (buildTranslationsObj c.translations),
          original := c.original, sourceLang := c.sourceLang } l2
        hstep hl1 hl2 hkey' hslots'
      refine ⟨seg', h1, h2, fun k hk => ?_⟩
      have h4 := h3 k hk
      rw [show (done ++ [c]) ++ rest = done ++ c :: rest by simp] at h4
      exact h4

/-- Claim C2: for any sequence of `saveSegment` calls sharing one
`(videoUrl, startTime)` key, starting from a store with no segment under
that key, the final store holds exactly one segment record for the key; for
each supported language its slot equals the last non-empty value supplied
for that language across the calls (so the record carries the union of all
non-empty slots ever supplied), and the slot is empty exactly when no call
ever supplied a non-empty value — in particular a later save with an empty
slot does not erase an earlier non-empty value. -/
theorem claim_C2_segment_merge :
    ∀ (st : Store) (url : String) (t : ℚ) (calls : List SaveCall),
      (∀ s ∈ st.segments, segKey (generateVideoId url) t s = false) →
      calls ≠ [] →
      countKey (runSaves st url t calls) (generateVideoId url) t = 1 ∧
      ∃ seg, (runSaves st url t calls).segments.find?
          (segKey (generateVideoId url) t) = some seg ∧
        (∀ k ∈ SUPPORTED_LANGUAGES,
          trLookup seg.translations k = suppliedSlot calls k) ∧
        (∀ k ∈ SUPPORTED_LANGUAGES,
          (trLookup seg.translations k = none ↔
            ∀ c ∈ calls, normalizeSlot (c.translations k) = none)) := by
  intro st url t calls h0 hne
  obtain ⟨c, rest, rfl⟩ : ∃ c rest, calls = c :: rest := by
    cases calls with
    | nil => exact absurd rfl hne
    | cons a b => exact ⟨a, b, rfl⟩
  obtain ⟨hfr1, hfr2, hfr3⟩ := saveSegment_fresh st url t c h0
  have hslots0 : ∀ k ∈ SUPPORTED_LANGUAGES,
      trLookup (saveSegment st url t c.endTime c.original c.sourceLang
        c.translations c.metadata c.now).2.translations k =
        suppliedSlot [c] k := by
    intro k hk
    rw [hfr3, trLookup_build c.translations k hk]
    show normalizeSlot (c.translations k) = suppliedSlot [c] k
    unfold suppliedSlot
    simp only [List.foldl_cons, List.foldl_nil]
    cases normalizeSlot (c.translations k) <;> rfl
  obtain ⟨seg', h1, h2, h3⟩ := runSaves_spec rest
    (saveSegment st url t c.endTime c.original c.sourceLang
      c.translations c.metadata c.now).1 url t [c] st.segments
    (saveSegment st url t c.endTime c.original c.sourceLang
      c.translations c.metadata c.now).2 []
    hfr1 h0 (fun x hx => by cases hx) hfr2 hslots0
  have hslots : ∀ k ∈ SUPPORTED_LANGUAGES,
      trLookup seg'.translations k = suppliedSlot (c :: rest) k := by
    intro k hk
    have h4 := h3 k hk
    rw [show ([c] ++ rest) = c :: rest by simp] at h4
    exact h4
  have hrun : runSaves st url t (c :: rest) = runSaves
      (saveSegment st url t c.endTime c.original c.sourceLang
        c.translations c.metadata c.now).1 url t rest := rfl
  rw [hrun]
  constructor
  · unfold countKey
    rw [h1, List.filter_append,
      List.filter_eq_nil_iff.mpr fun x hx => by simp [h0 x hx]]
    simp [h2]
  · refine ⟨seg', ?_, hslots, ?_⟩
    · rw [h1, List.find?_append,
        List.find?_eq_none.mpr fun x hx => by simp [h0 x hx],
        List.find?_cons_of_pos _ h2]
      rfl
    · intro k hk
      rw [hslots k hk]
      exact suppliedSlot_eq_none_iff (c :: rest) k

/-- Witness for C2: two saves at the same key, the first supplying `vi`, the
second supplying `en`, against the empty store. -/
theorem claim_C2_segment_merge_witness :
    (∀ s ∈ emptyStore.segments,
      segKey (generateVideoId "https://v.example/a") 10 s = false) ∧
    ([⟨12, "hello", "en",
        (fun l => if l = "vi" then some "Xin chao" else none), {}, 1⟩,
      ⟨12, "hello", "en",
        (fun l => if l = "en" then some "Hello" else none), {}, 2⟩] :
      List SaveCall) ≠ [] ∧
    countKey (runSaves emptyStore "https://v.example/a" 10
        [⟨12, "hello", "en",
          (fun l => if l = "vi" then some "Xin chao" else none), {}, 1⟩,
         ⟨12, "hello", "en",
          (fun l => if l = "en" then some "Hello" else none), {}, 2⟩])
      (generateVideoId "https://v.example/a") 10 = 1 :=
  by
  refine ⟨?_, ?_, ?_⟩
  · intro s hs
    exact absurd hs (by simp [emptyStore])
  · simp
  · exact (claim_C2_segment_merge emptyStore "https://v.example/a" 10
      [⟨12, "hello", "en",
        (fun l => if l = "vi" then some "Xin chao" else none), {}, 1⟩,
       ⟨12, "hello", "en",
        (fun l => if l = "en" then some "Hello" else none), {}, 2⟩]
      (by intro s hs; exact absurd hs (by simp [emptyStore])) (by simp)).1

set_option maxRecDepth 8192 in
/-- Claim C8 as stated is false: `addTranslation` writes its `lang` argument
into the translations object unchecked, so a language code outside the
supported ten adds an eleventh key — here a segment created by `saveSegment`
(carrying exactly the ten supported keys) gains a `pt` key. -/
theorem claim_C8_counterexample :
    ((addTranslation (saveSegment emptyStore "u" 10 12 "hello" "en"
        (fun _ => none) {} 0).1 "u" 10 "pt" (some "ola")).2.map
      fun s => trKeys s.translations) =
      some (SUPPORTED_LANGUAGES ++ ["pt"]) ∧
    SUPPORTED_LANGUAGES ++ ["pt"] ≠ SUPPORTED_LANGUAGES := by
  constructor
  · decide
  · decide

/-- Claim C8 amended: every segment written by `saveSegment` (creating or
merging) carries exactly one entry per supported language code and no other
keys, and `addTranslation` preserves this shape when its language argument is
one of the ten supported codes; an unsupported code instead appends a new
key. -/
theorem claim_C8_translations_keys :
    ∀ (st : Store) (url : String) (t endT : ℚ) (orig sl : String)
      (tr : String → Option String) (md : Metadata) (now : ℕ)
      (lang : String) (trv : Option String),
      (∀ s ∈ st.segments, trKeys s.translations = SUPPORTED_LANGUAGES) →
      (∀ s ∈ (saveSegment st url t endT orig sl tr md now).1.segments,
        trKeys s.translations = SUPPORTED_LANGUAGES) ∧
      (lang ∈ SUPPORTED_LANGUAGES →
        ∀ s ∈ (addTranslation st url t lang trv).1.segments,
          trKeys s.translations = SUPPORTED_LANGUAGES) := by
  intro st url t endT orig sl tr md now lang trv hinv
  have hmergekeys : ∀ ex : Segment, ex ∈ st.segments →
      trKeys (mergeTranslations ex.translations (buildTranslationsObj tr)) =
        SUPPORTED_LANGUAGES := by
    intro ex hex
    rw [show mergeTranslations ex.translations (buildTranslationsObj tr) =
      mergeFold ex.translations (buildTranslationsObj tr) from rfl]
    rw [trKeys_mergeFold (buildTranslationsObj tr) ex.translations ?_]
    · exact hinv ex hex
    · intro p hp
      rcases List.mem_map.mp hp with ⟨l, hl, rfl⟩
      rw [hinv ex hex]
      exact hl
  constructor
  · intro s hs
    cases hfind : ((saveVideo st url "" 0 now).1.segments).find?
        (segKey (generateVideoId url) t) with
    | some ex =>
        have hex : ex ∈ st.segments := List.mem_of_find?_eq_some hfind
        simp only [saveSegment, hfind] at hs
        rcases mem_replaceFirst _ _ _ _ hs with rfl | hmem
        · exact hmergekeys ex hex
        · exact hinv s hmem
    | none =>
        simp only [saveSegment, hfind] at hs
        rcases List.mem_append.mp hs with hmem | hmem
        · exact hinv s hmem
        · rw [List.mem_singleton.mp hmem]
          exact trKeys_build tr
  · intro hlang s hs
    cases hfind : st.segments.find? (segKey (generateVideoId url) t) with
    | some ex =>
        have hex : ex ∈ st.segments := List.mem_of_find?_eq_some hfind
        simp only [addTranslation, hfind] at hs
        rcases mem_replaceFirst _ _ _ _ hs with rfl | hmem
        · show trKeys (objSet ex.translations lang trv) = SUPPORTED_LANGUAGES
          rw [trKeys_objSet_mem ex.translations lang trv
            (by rw [hinv ex hex]; exact hlang)]
          exact hinv ex hex
        · exact hinv s hmem
    | none =>
        simp only [addTranslation, hfind] at hs
        exact hinv s hs

/-- Witness for C8 (amended): one creating save against the empty store. -/
theorem claim_C8_translations_keys_witness :
    (∀ s ∈ emptyStore.segments, trKeys s.translations = SUPPORTED_LANGUAGES) ∧
    (∀ s ∈ (saveSegment emptyStore "u" 10 12 "hi" "en"
        (fun _ => none) {} 0).1.segments,
      trKeys s.translations = SUPPORTED_LANGUAGES) := by
  have h0 : ∀ s ∈ emptyStore.segments,
      trKeys s.translations = SUPPORTED_LANGUAGES := by
    intro s hs
    exact absurd hs (by simp [emptyStore])
  exact ⟨h0, (claim_C8_translations_keys emptyStore "u" 10 12 "hi" "en"
    (fun _ => none) {} 0 "vi" none h0).1⟩

/-- Claim C9: the video id is a deterministic function of the URL (two saves
of the same URL produce the same id); on a first save both `createdAt` and
`lastAccessed` are the save time, and every repeat save preserves the
existing record's `createdAt` while setting `lastAccessed` to the new save
time. -/
theorem claim_C9_video_record :
    (∀ (st : Store) (url t1 t2 : String) (d1 d2 : ℚ) (n1 n2 : ℕ),
      (∀ v ∈ st.videos, (v.id == generateVideoId url) = false) →
      (saveVideo st url t1 d1 n1).2.id = generateVideoId url ∧
      (saveVideo (saveVideo st url t1 d1 n1).1 url t2 d2 n2).2.id =
        (saveVideo st url t1 d1 n1).2.id ∧
      (saveVideo st url t1 d1 n1).2.createdAt = n1 ∧
      (saveVideo st url t1 d1 n1).2.lastAccessed = n1 ∧
      (saveVideo (saveVideo st url t1 d1 n1).1 url t2 d2 n2).2.createdAt = n1 ∧
      (saveVideo (saveVideo st url t1 d1 n1).1 url t2 d2 n2).2.lastAccessed =
        n2) ∧
    (∀ (st : Store) (url ti : String) (d : ℚ) (now : ℕ) (r : Video),
      st.videos.find? (fun v => v.id == generateVideoId url) = some r →
      (saveVideo st url ti d now).2.createdAt = r.createdAt ∧
      (saveVideo st url ti d now).2.lastAccessed = now) := by
  have hrepeat : ∀ (st : Store) (url ti : String) (d : ℚ) (now : ℕ) (r : Video),
      st.videos.find? (fun v => v.id == generateVideoId url) = some r →
      (saveVideo st url ti d now).2.createdAt = r.createdAt ∧
      (saveVideo st url ti d now).2.lastAccessed = now := by
    intro st url ti d now r hfind
    constructor
    · simp only [saveVideo, hfind]
    · simp only [saveVideo]
  refine ⟨?_, hrepeat⟩
  intro st url t1 t2 d1 d2 n1 n2 hfresh
  have hfind1 : st.videos.find? (fun v => v.id == generateVideoId url) = none := by
    rw [List.find?_eq_none]
    intro v hv
    simp [hfresh v hv]
  have hid1 : (saveVideo st url t1 d1 n1).2.id = generateVideoId url := by
    simp only [saveVideo]
  have hvideos1 : (saveVideo st url t1 d1 n1).1.videos =
      st.videos ++ [(saveVideo st url t1 d1 n1).2] := by
    show putVideo st.videos (saveVideo st url t1 d1 n1).2 = _
    unfold putVideo
    rw [if_neg ?_]
    rw [Bool.not_eq_true, List.any_eq_false]
    intro v hv
    rw [hid1]
    simp [hfresh v hv]
  have hfind2 : (saveVideo st url t1 d1 n1).1.videos.find?
      (fun v => v.id == generateVideoId url) =
      some (saveVideo st url t1 d1 n1).2 := by
    rw [hvideos1, List.find?_append, hfind1]
    rw [List.find?_cons_of_pos _ (by rw [hid1]; simp)]
    rfl
  have h2 := hrepeat (saveVideo st url t1 d1 n1).1 url t2 d2 n2
    (saveVideo st url t1 d1 n1).2 hfind2
  refine ⟨hid1, ?_, ?_, ?_, ?_, h2.2⟩
  · rw [hid1]
    simp only [saveVideo]
  · simp only [saveVideo, hfind1]
  · simp only [saveVideo]
  · rw [h2.1]
    simp only [saveVideo, hfind1]

/-- Witness for C9 at a concrete URL against the empty store. -/
theorem claim_C9_video_record_witness :
    (∀ v ∈ emptyStore.videos,
      (v.id == generateVideoId "https://v.example/a") = false) ∧
    (saveVideo (saveVideo emptyStore "https://v.example/a" "t" 0 5).1
      "https://v.example/a" "t" 0 9).2.createdAt = 5 := by
  have h0 : ∀ v ∈ emptyStore.videos,
      (v.id == generateVideoId "https://v.example/a") = false := by
    intro v hv
    exact absurd hv (by simp [emptyStore])
  exact ⟨h0, (claim_C9_video_record.1 emptyStore "https://v.example/a" "t" "t"
    0 0 5 9 h0).2.2.2.2.1⟩

end BypassSubtitle
